import Mathlib

/-!
Shallow embedding of the OfficeLLM core (src/src/core/OfficeLLM.ts, the
snapshot pairing `ManagerAgent`/`WorkerAgent` with the instance-keyed
memory, plus src/src/memory/InMemoryStorage.ts and src/unnamed/part_003).

The provider is modelled as an oracle mapping the call index and the
transmitted message list to either a response (a successful `chat`) or a
thrown error message.  Machine integers of the source are modelled as `Nat`
(token counters and timestamps are non-negative and never overflow in the
source's domain).  JavaScript `||`-defaulting, `Array.prototype.slice` with
a negative argument, and insertion-ordered `Map` semantics are embedded
explicitly where the source relies on them.
-/

namespace OfficeLLM

/-- Token-usage counters, `ProviderResponse.usage` in BaseProvider.ts. -/
structure Usage where
  promptTokens : Nat
  completionTokens : Nat
  totalTokens : Nat
deriving Repr, DecidableEq

/-- The all-zero accumulator `{ promptTokens: 0, completionTokens: 0, totalTokens: 0 }`. -/
def Usage.zero : Usage := ⟨0, 0, 0⟩

/-- Componentwise sum of two usage records. -/
def Usage.add (a b : Usage) : Usage :=
  ⟨a.promptTokens + b.promptTokens,
   a.completionTokens + b.completionTokens,
   a.totalTokens + b.totalTokens⟩

/-- Model of `if (response.usage) { totalUsage.x += response.usage.x; ... }`:
accumulate an optional usage record into the running total. -/
def accumUsage (t : Usage) : Option Usage → Usage
  | none => t
  | some u => t.add u

/-- Message roles of `ProviderMessage.role`. -/
inductive Role where
  | system
  | user
  | assistant
  | tool
deriving Repr, DecidableEq

/-- Model of `ToolCall.function` in BaseProvider.ts: the requested name and the raw
JSON argument string. -/
structure ToolCallFunction where
  name : String
  arguments : String
deriving Repr, DecidableEq

/-- Model of `ToolCall` in BaseProvider.ts (the `type: 'function'` tag is constant and
carries no information). -/
structure ToolCall where
  id : String
  function : ToolCallFunction
deriving Repr, DecidableEq

/-- Model of `ProviderMessage` in BaseProvider.ts.  An absent `toolCalls` field is
modelled as the empty list (the source only ever asks
`!toolCalls || toolCalls.length === 0`). -/
structure Msg where
  role : Role
  content : String
  toolCalls : List ToolCall := []
  toolCallId : Option String := none
deriving Repr, DecidableEq

/-- Model of `ProviderResponse` in BaseProvider.ts (`finishReason` is never read by
the loops and is omitted). -/
structure ProviderResponse where
  content : String
  toolCalls : List ToolCall := []
  usage : Option Usage := none
deriving Repr, DecidableEq

/-- Parsed JSON argument payload (`JSON.parse(toolCall.function.arguments)`),
modelled as a key/value record; the loops never inspect it, they only pass
it on to implementations/workers. -/
abbrev Params := List (String × String)

/-- Model of `TaskResult` in types/index.ts, restricted to the fields the loops
produce and read. -/
structure TaskResult where
  success : Bool
  content : String
  error : Option String := none
  usage : Option Usage := none
deriving Repr, DecidableEq

/-- JavaScript `config.x || d` defaulting for numeric config fields:
`undefined` and `0` are falsy and fall back to the default. -/
def jsOrDefault (v : Option Nat) (d : Nat) : Nat :=
  match v with
  | none => d
  | some n => if n = 0 then d else n

/-- JavaScript `arr.slice(-k)`: for `k = 0` this is `arr.slice(0)`, the whole
array; for `k > 0` it is the suffix of the last `min k arr.length` elements. -/
def jsSliceLast (k : Nat) (l : List Msg) : List Msg :=
  if k = 0 then l else l.drop (l.length - k)

/-- Model of `applyContextWindow` (identical in ManagerAgent and WorkerAgent): if the
retained sequence fits in the window it is transmitted unchanged, otherwise
`[messages[0], ...messages.slice(-(contextWindow - 1))]` is transmitted. -/
def applyContextWindow (contextWindow : Nat) (messages : List Msg) : List Msg :=
  if messages.length ≤ contextWindow then
    messages
  else
    match messages with
    | [] => []
    | m0 :: _ => m0 :: jsSliceLast (contextWindow - 1) messages

/-- The assistant turn appended when a response carries tool calls
(`messages.push({ role: 'assistant', content, toolCalls })`). -/
def assistantToolMsg (resp : ProviderResponse) : Msg :=
  { role := .assistant, content := resp.content, toolCalls := resp.toolCalls }

/-- The final assistant turn the worker appends on a tool-less response
(`messages.push({ role: 'assistant', content })`). -/
def assistantFinalMsg (content : String) : Msg :=
  { role := .assistant, content := content }

/-- A tool-response turn carrying the correlation id
(`messages.push({ role: 'tool', content, toolCallId })`). -/
def toolMsg (content : String) (callId : String) : Msg :=
  { role := .tool, content := content, toolCallId := some callId }

/-! ### Worker agent (`WorkerAgent` in OfficeLLM.ts) -/

/-- Environment of one `WorkerAgent.execute` run: the provider oracle (call
index and transmitted messages, to either a response or a thrown error
message), the registered tool implementations
(`config.toolImplementations || {}`; an implementation may itself throw,
yielding `.error`), the `JSON.parse` oracle, and the configured context
window. -/
structure WorkerEnv where
  provider : Nat → List Msg → Except String ProviderResponse
  impls : String → Option (Params → Except String String)
  jsonParse : String → Except String Params
  contextWindow : Nat

/-- The message thrown by `WorkerAgent.executeTool` when no implementation is
registered for the requested tool name. -/
def missingImplMessage (toolName : String) : String :=
  "Tool \"" ++ toolName ++ "\" has no implementation provided. Please add the tool implementation to the worker configuration."

/-- Model of `WorkerAgent.executeTool`: a registered implementation is invoked under a
local guard (its failure is converted to an `Error executing tool` text,
returned as an ordinary result); an unregistered name throws. -/
def executeTool (env : WorkerEnv) (toolName : String) (args : Params) : Except String String :=
  match env.impls toolName with
  | some impl =>
    match impl args with
    | .ok s => .ok s
    | .error m => .ok ("Error executing tool \"" ++ toolName ++ "\": " ++ m)
  | none => .error (missingImplMessage toolName)

/-- The `for (const toolCall of response.toolCalls)` body of
`WorkerAgent.execute`: parse the arguments, run `executeTool`, append the
tool turn.  A throw (from `JSON.parse` or from `executeTool`) aborts the
iteration, carrying the messages appended so far (the caller's `catch`
persists them). -/
def workerProcessToolCalls (env : WorkerEnv) :
    List ToolCall → List Msg → Except (String × List Msg) (List Msg)
  | [], msgs => .ok msgs
  | tc :: rest, msgs =>
    match env.jsonParse tc.function.arguments with
    | .error e => .error (e, msgs)
    | .ok args =>
      match executeTool env tc.function.name args with
      | .error e => .error (e, msgs)
      | .ok toolResult =>
        workerProcessToolCalls env rest (msgs ++ [toolMsg toolResult tc.id])

/-- Fixed content returned by `WorkerAgent.execute` when the iteration
ceiling is exhausted. -/
def workerMaxIterMessage : String :=
  "Worker execution stopped: Maximum iterations reached. Partial results may be available."

/-- Outcome of one bounded-loop run: the `TaskResult` returned, the retained
message sequence at exit (which is exactly what `storeConversation`
persists at that exit), the number of provider calls made, and the
successful provider responses observed, in order. -/
structure LoopExit where
  result : TaskResult
  messages : List Msg
  calls : Nat
  okResponses : List ProviderResponse
deriving Repr

/-- The `while (iteration < this.maxIterations)` loop of
`WorkerAgent.execute`, with `fuel = maxIterations - iteration` remaining
rounds.  Each round transmits the context-windowed view, accumulates usage,
exits on a tool-less response (appending the final assistant turn), and
otherwise appends the assistant turn and dispatches every tool call in
order; a throw anywhere is caught at the loop boundary into a failed
result. -/
def workerLoop (env : WorkerEnv) :
    Nat → Nat → List Msg → Usage → Nat → List ProviderResponse → LoopExit
  | 0, _, msgs, usage, calls, oks =>
    { result := { success := true, content := workerMaxIterMessage, usage := some usage },
      messages := msgs, calls := calls, okResponses := oks }
  | fuel + 1, callIdx, msgs, usage, calls, oks =>
    match env.provider callIdx (applyContextWindow env.contextWindow msgs) with
    | .error e =>
      { result := { success := false, content := "", error := some e, usage := some usage },
        messages := msgs, calls := calls + 1, okResponses := oks }
    | .ok resp =>
      let usage' := accumUsage usage resp.usage
      let oks' := oks ++ [resp]
      if resp.toolCalls.isEmpty then
        { result := { success := true, content := resp.content, usage := some usage' },
          messages := msgs ++ [assistantFinalMsg resp.content],
          calls := calls + 1, okResponses := oks' }
      else
        match workerProcessToolCalls env resp.toolCalls (msgs ++ [assistantToolMsg resp]) with
        | .error (e, msgsE) =>
          { result := { success := false, content := "", error := some e, usage := some usage' },
            messages := msgsE, calls := calls + 1, okResponses := oks' }
        | .ok msgs' => workerLoop env fuel (callIdx + 1) msgs' usage' (calls + 1) oks'

/-- The system turn an agent is constructed with. -/
def systemMsg (systemPrompt : String) : Msg :=
  { role := .system, content := systemPrompt }

/-- Model of `WorkerAgent`'s constructor seeds the retained message sequence with the
system instruction. -/
def workerInitMessages (systemPrompt : String) : List Msg :=
  [systemMsg systemPrompt]

/-- Model of `WorkerAgent.resetHistory`: the retained sequence is reset to just the
system instruction. -/
def workerResetHistory (systemPrompt : String) : List Msg :=
  [systemMsg systemPrompt]

/-- The user turn `WorkerAgent.execute` appends:
`` `${key}: ${JSON.stringify(value)}` `` joined by newlines (values are
modelled as their stringified form). -/
def workerParamsMsg (params : Params) : Msg :=
  { role := .user,
    content := String.intercalate "\n" (params.map (fun kv => kv.1 ++ ": " ++ kv.2)) }

/-- Model of `WorkerAgent.execute`: append the user turn to the retained instance
state and run the bounded loop with `maxIterations` rounds of fuel. -/
def workerExecute (env : WorkerEnv) (maxIterations : Nat) (state : List Msg)
    (params : Params) : LoopExit :=
  workerLoop env maxIterations 0 (state ++ [workerParamsMsg params]) Usage.zero 0 []

/-! ### Manager agent (`ManagerAgent` in OfficeLLM.ts) -/

/-- Environment of one `ManagerAgent.executeTask` run: the provider oracle,
the registered workers (`worker.execute` never throws — it returns a
`TaskResult` in every case — so a worker is a total function), the optional
`config.restrictedWorkers` denylist, and the `JSON.parse` oracle. -/
structure ManagerEnv where
  provider : Nat → List Msg → Except String ProviderResponse
  workers : String → Option (Params → TaskResult)
  restrictedWorkers : Option (List String)
  jsonParse : String → Except String Params
  contextWindow : Nat

/-- Model of `!this.config.restrictedWorkers || !this.config.restrictedWorkers.includes(name)`. -/
def managerNotRestricted (env : ManagerEnv) (name : String) : Bool :=
  match env.restrictedWorkers with
  | none => true
  | some l => !(l.contains name)

/-- The fixed tool-turn content for an unknown or restricted worker name. -/
def workerNotFoundMessage (name : String) : String :=
  "Error: Worker '" ++ name ++ "' not found or restricted"

/-- Content of the tool turn recording a delegated worker's result:
the worker's content on success, else `` `Error: ${workerResult.error}` ``
(an absent error renders as JavaScript's `"undefined"`). -/
def workerResultContent (wr : TaskResult) : String :=
  if wr.success then wr.content
  else "Error: " ++ (match wr.error with | some e => e | none => "undefined")

/-- The `for (const toolCall of response.toolCalls)` body of
`ManagerAgent.executeTask`: a resolved, unrestricted worker is executed
(its usage folded into the running total, its result recorded as a tool
turn); an unknown or restricted name yields the fixed error tool turn and
is non-fatal.  Only `JSON.parse` can throw here. -/
def managerProcessToolCalls (env : ManagerEnv) :
    List ToolCall → List Msg → Usage → List TaskResult →
    Except (String × List Msg × Usage × List TaskResult)
      (List Msg × Usage × List TaskResult)
  | [], msgs, usage, ds => .ok (msgs, usage, ds)
  | tc :: rest, msgs, usage, ds =>
    match env.workers tc.function.name, managerNotRestricted env tc.function.name with
    | some wexec, true =>
      match env.jsonParse tc.function.arguments with
      | .error e => .error (e, msgs, usage, ds)
      | .ok args =>
        let wr := wexec args
        managerProcessToolCalls env rest (msgs ++ [toolMsg (workerResultContent wr) tc.id])
          (accumUsage usage wr.usage) (ds ++ [wr])
    | _, _ =>
      managerProcessToolCalls env rest
        (msgs ++ [toolMsg (workerNotFoundMessage tc.function.name) tc.id]) usage ds

/-- Fixed content returned by `ManagerAgent.executeTask` when the iteration
ceiling is exhausted. -/
def managerMaxIterMessage : String :=
  "Task execution stopped: Maximum iterations reached. Partial results may be available."

/-- Outcome of one manager-loop run; like `LoopExit` but also recording the
delegated workers' results, in dispatch order. -/
structure MgrLoopExit where
  result : TaskResult
  messages : List Msg
  calls : Nat
  okResponses : List ProviderResponse
  delegations : List TaskResult
deriving Repr

/-- The `while (iteration < this.maxIterations)` loop of
`ManagerAgent.executeTask`.  Note that on a tool-less response the manager
returns without appending the assistant turn (unlike the worker loop). -/
def managerLoop (env : ManagerEnv) :
    Nat → Nat → List Msg → Usage → Nat → List ProviderResponse → List TaskResult → MgrLoopExit
  | 0, _, msgs, usage, calls, oks, ds =>
    { result := { success := true, content := managerMaxIterMessage, usage := some usage },
      messages := msgs, calls := calls, okResponses := oks, delegations := ds }
  | fuel + 1, callIdx, msgs, usage, calls, oks, ds =>
    match env.provider callIdx (applyContextWindow env.contextWindow msgs) with
    | .error e =>
      { result := { success := false, content := "", error := some e, usage := some usage },
        messages := msgs, calls := calls + 1, okResponses := oks, delegations := ds }
    | .ok resp =>
      let usage' := accumUsage usage resp.usage
      let oks' := oks ++ [resp]
      if resp.toolCalls.isEmpty then
        { result := { success := true, content := resp.content, usage := some usage' },
          messages := msgs, calls := calls + 1, okResponses := oks', delegations := ds }
      else
        match managerProcessToolCalls env resp.toolCalls (msgs ++ [assistantToolMsg resp])
            usage' ds with
        | .error (e, msgsE, usageE, dsE) =>
          { result := { success := false, content := "", error := some e, usage := some usageE },
            messages := msgsE, calls := calls + 1, okResponses := oks', delegations := dsE }
        | .ok (msgs', usage'', ds') =>
          managerLoop env fuel (callIdx + 1) msgs' usage'' (calls + 1) oks' ds'

/-- Model of `Task` in types/index.ts, restricted to the fields `executeTask` reads. -/
structure Task where
  title : String
  description : String
  priority : Option String := none
deriving Repr, DecidableEq

/-- The initial user turn of a manager execution:
`` `Task: ${title}\n\nDescription: ${description}\n\nPriority: ${priority || 'medium'}` ``. -/
def taskUserMsg (t : Task) : Msg :=
  { role := .user,
    content := "Task: " ++ t.title ++ "\n\nDescription: " ++ t.description ++
      "\n\nPriority: " ++ (match t.priority with | some p => p | none => "medium") }

/-- The initial message sequence of `ManagerAgent.executeTask`. -/
def managerInitMessages (systemPrompt : String) (t : Task) : List Msg :=
  [systemMsg systemPrompt, taskUserMsg t]

/-- Model of `ManagerAgent.executeTask`: run the bounded loop from the system + task
turns with `maxIterations` rounds of fuel. -/
def managerExecuteTask (env : ManagerEnv) (systemPrompt : String) (maxIterations : Nat)
    (t : Task) : MgrLoopExit :=
  managerLoop env maxIterations 0 (managerInitMessages systemPrompt t) Usage.zero 0 [] []

/-! ### In-memory conversation store

Two variants exist in the repository: `src/src/memory/InMemoryStorage.ts`
keys each stored conversation by `conversation.id`, while the variant in
`src/unnamed/part_003` keys every write of one OfficeLLM instance by the
single `this.instanceId`.  A JavaScript `Map` is embedded as an
insertion-ordered association list: `set` updates in place when the key is
present and appends otherwise; iteration follows list order. -/

/-- Model of `StoredConversation` in memory/BaseMemory.ts; timestamps are epoch
milliseconds (`Date.getTime()`), modelled as `Nat`. -/
structure StoredConversation where
  id : String
  agentType : String
  agentName : String
  messages : List Msg
  createdAt : Nat
  updatedAt : Nat
deriving Repr, DecidableEq

/-- Insertion-ordered association list standing for a JavaScript `Map`. -/
abbrev ConvMap := List (String × StoredConversation)

/-- Model of `Map.prototype.set`: replace in place if the key exists, else append. -/
def mapSet (m : ConvMap) (k : String) (v : StoredConversation) : ConvMap :=
  if m.any (fun p => p.1 = k) then
    m.map (fun p => if p.1 = k then (k, v) else p)
  else
    m ++ [(k, v)]

/-- Model of `Map.prototype.delete`. -/
def mapDelete (m : ConvMap) (k : String) : ConvMap :=
  m.filter (fun p => p.1 ≠ k)

/-- Model of `Map.prototype.get`, as used by `getConversation`. -/
def mapGet (m : ConvMap) (k : String) : Option StoredConversation :=
  (m.find? (fun p => p.1 = k)).map (fun p => p.2)

/-- The id-keyed store (`src/src/memory/InMemoryStorage.ts`). -/
structure InMemoryStorage where
  conversations : ConvMap
  maxConversations : Nat
deriving Repr

/-- Model of `findOldestConversation`: scan the map in iteration order, tracking the
entry with strictly smallest `updatedAt` (`oldestTime` starts at `Infinity`,
so the first entry is always taken; ties keep the earlier entry).  Returns
`none` exactly on the empty map. -/
def findOldestConversation (m : ConvMap) : Option String :=
  (m.foldl (fun acc p =>
    match acc with
    | none => some p
    | some q => if p.2.updatedAt < q.2.updatedAt then some p else some q) none).map
      (fun p => p.1)

/-- The eviction prelude of `storeConversation`: when the map has reached
`maxConversations`, delete the oldest conversation (if any). -/
def evictIfFull (s : InMemoryStorage) : InMemoryStorage :=
  if s.maxConversations ≤ s.conversations.length then
    match findOldestConversation s.conversations with
    | some oldestId => { s with conversations := mapDelete s.conversations oldestId }
    | none => s
  else s

/-- Model of `InMemoryStorage.storeConversation` (id-keyed variant): evict when at
the bound, then `set` under `conversation.id` (the spread with
`new Date(...)` copies the record with equal timestamps, i.e. stores an
equal value). -/
def storeConversation (c : StoredConversation) (s : InMemoryStorage) : InMemoryStorage :=
  let s1 := evictIfFull s
  { s1 with conversations := mapSet s1.conversations c.id c }

/-- Model of `InMemoryStorage.getConversation` (id-keyed variant). -/
def getConversation (s : InMemoryStorage) (id : String) : Option StoredConversation :=
  mapGet s.conversations id

/-- The instance-keyed store of `src/unnamed/part_003`: the same map and
bound, plus the single `instanceId` under which every write is keyed. -/
structure InMemoryStorageInst where
  conversations : ConvMap
  maxConversations : Nat
  instanceId : String
deriving Repr

/-- Eviction prelude of the instance-keyed `storeConversation`. -/
def evictIfFullInst (s : InMemoryStorageInst) : InMemoryStorageInst :=
  if s.maxConversations ≤ s.conversations.length then
    match findOldestConversation s.conversations with
    | some oldestId => { s with conversations := mapDelete s.conversations oldestId }
    | none => s
  else s

/-- Model of `storeConversation` of `src/unnamed/part_003`: evict when at the bound,
then `set` under `this.instanceId` — the key is the same for every write of
the instance. -/
def storeConversationInst (c : StoredConversation) (s : InMemoryStorageInst) :
    InMemoryStorageInst :=
  let s1 := evictIfFullInst s
  { s1 with conversations := mapSet s1.conversations s.instanceId c }

/-- Model of `getConversation` of `src/unnamed/part_003`: look up the instance key. -/
def getConversationInst (s : InMemoryStorageInst) : Option StoredConversation :=
  mapGet s.conversations s.instanceId

/-- Model of `queryConversations` with no filters and no pagination options: the
map's values sorted most-recently-updated first (`sort` by the comparator
`b.updatedAt - a.updatedAt`, stable in order of iteration; `offset || 0 = 0`
and `limit || results.length` then return the whole list). -/
def queryConversationsAll (m : ConvMap) : List StoredConversation :=
  (m.map (fun p => p.2)).mergeSort (fun a b => b.updatedAt ≤ a.updatedAt)

/-! ### Derived quantities and dispatch predicates -/

/-- Sum of the usage reported by a sequence of successful provider calls
(a call whose response carries no `usage` reports nothing). -/
def sumUsages (rs : List ProviderResponse) : Usage :=
  rs.foldl (fun u r => accumUsage u r.usage) Usage.zero

/-- Sum of the usage carried by a sequence of delegated workers' results. -/
def sumTaskUsages (ws : List TaskResult) : Usage :=
  ws.foldl (fun u w => accumUsage u w.usage) Usage.zero

/-- A tool call the worker loop dispatches without throwing: its arguments
parse and an implementation is registered (a registered implementation's own
failure is caught locally and never throws). -/
def workerDispatchOk (env : WorkerEnv) (t : ToolCall) : Prop :=
  (∃ args, env.jsonParse t.function.arguments = .ok args) ∧
    (env.impls t.function.name).isSome

/-- A tool call the manager loop dispatches without throwing: whenever the
name resolves to an unrestricted worker, its arguments parse (an unresolved
or restricted name never throws, and `worker.execute` never throws). -/
def managerDispatchNoThrow (env : ManagerEnv) (t : ToolCall) : Prop :=
  ((env.workers t.function.name).isSome ∧ managerNotRestricted env t.function.name = true) →
    ∃ args, env.jsonParse t.function.arguments = .ok args

/-! ### Concrete instances used to evaluate the model -/

/-- A tool call for a name with no registered implementation. -/
def tcFrob : ToolCall := { id := "call-1", function := { name := "frob", arguments := "x" } }

/-- A response requesting `frob`. -/
def respFrob : ProviderResponse :=
  { content := "plan", toolCalls := [tcFrob], usage := some ⟨1, 2, 3⟩ }

/-- Worker environment whose provider always requests `frob`, with an empty
dispatch table (Scenario B of the spec). -/
def wEnvMissing : WorkerEnv :=
  { provider := fun _ _ => .ok respFrob,
    impls := fun _ => none,
    jsonParse := fun _ => .ok [],
    contextWindow := 10 }

/-- A tool call naming the restricted worker `calc`. -/
def tcCalc : ToolCall := { id := "call-2", function := { name := "calc", arguments := "y" } }

/-- A registered worker used by the restricted-dispatch example. -/
def calcWorker : Params → TaskResult :=
  fun _ => { success := true, content := "42", usage := some ⟨1, 1, 2⟩ }

/-- A response delegating to `calc`. -/
def respDelegate : ProviderResponse :=
  { content := "delegate", toolCalls := [tcCalc], usage := some ⟨2, 1, 3⟩ }

/-- Manager environment with `restrictedWorkers = ["calc"]` whose provider
always requests `calc` (Scenario C of the spec). -/
def mEnvRestricted : ManagerEnv :=
  { provider := fun _ _ => .ok respDelegate,
    workers := fun n => if n = "calc" then some calcWorker else none,
    restrictedWorkers := some ["calc"],
    jsonParse := fun _ => .ok [],
    contextWindow := 10 }

/-- A tool call for the registered worker tool `t`. -/
def tcT : ToolCall := { id := "call-3", function := { name := "t", arguments := "z" } }

/-- A response requesting the registered tool `t`. -/
def respBusyW : ProviderResponse :=
  { content := "w", toolCalls := [tcT], usage := some ⟨1, 0, 1⟩ }

/-- Worker environment whose provider always requests the registered tool
`t` (Scenario A of the spec, worker side). -/
def wEnvBusy : WorkerEnv :=
  { provider := fun _ _ => .ok respBusyW,
    impls := fun n => if n = "t" then some (fun _ => .ok "res") else none,
    jsonParse := fun _ => .ok [],
    contextWindow := 10 }

/-- A tool call for a worker name that is never registered. -/
def tcGhost : ToolCall := { id := "call-4", function := { name := "ghost", arguments := "q" } }

/-- A response requesting the unregistered worker `ghost`. -/
def respBusyM : ProviderResponse :=
  { content := "m", toolCalls := [tcGhost], usage := some ⟨0, 1, 1⟩ }

/-- Manager environment whose provider always requests some (unregistered)
worker (Scenario A of the spec, manager side). -/
def mEnvBusy : ManagerEnv :=
  { provider := fun _ _ => .ok respBusyM,
    workers := fun _ => none,
    restrictedWorkers := none,
    jsonParse := fun _ => .ok [],
    contextWindow := 10 }

/-- A tool-less response. -/
def respDone : ProviderResponse :=
  { content := "done", toolCalls := [], usage := some ⟨1, 1, 2⟩ }

/-- Worker environment whose provider immediately answers without tool
calls. -/
def wEnvDone : WorkerEnv :=
  { provider := fun _ _ => .ok respDone,
    impls := fun _ => none,
    jsonParse := fun _ => .ok [],
    contextWindow := 10 }

/-- Manager environment whose provider immediately answers without tool
calls. -/
def mEnvDone : ManagerEnv :=
  { provider := fun _ _ => .ok respDone,
    workers := fun _ => none,
    restrictedWorkers := none,
    jsonParse := fun _ => .ok [],
    contextWindow := 10 }

/-- A concrete task for evaluations. -/
def exTask : Task := { title := "t", description := "d" }

/-- A worker's persisted conversation, as stored at a worker-execution exit. -/
def convA : StoredConversation :=
  { id := "conv-a", agentType := "worker", agentName := "w",
    messages := [systemMsg "ws"], createdAt := 1, updatedAt := 1 }

/-- A manager's persisted conversation, stored after `convA`. -/
def convB : StoredConversation :=
  { id := "conv-b", agentType := "manager", agentName := "m",
    messages := [systemMsg "ms"], createdAt := 2, updatedAt := 2 }

/-- An empty instance-keyed store with the default bound. -/
def instStoreEmpty : InMemoryStorageInst :=
  { conversations := [], maxConversations := 1000, instanceId := "inst-1" }

/-- An empty id-keyed store with the default bound. -/
def idStoreEmpty : InMemoryStorage :=
  { conversations := [], maxConversations := 1000 }

/-- A resident conversation of a store at its capacity bound. -/
def convX : StoredConversation :=
  { id := "conv-x", agentType := "worker", agentName := "w",
    messages := [], createdAt := 0, updatedAt := 0 }

/-- An id-keyed store already at its bound `maxConversations = 1`. -/
def idStoreFull : InMemoryStorage :=
  { conversations := [("conv-x", convX)], maxConversations := 1 }

/-! ## Helper lemmas -/

lemma accumUsage_add_swap (s t : Usage) (o : Option Usage) :
    accumUsage (s.add t) o = (accumUsage s o).add t := by
  cases o <;> simp [accumUsage, Usage.add, Usage.mk.injEq]
  omega

lemma accumUsage_add_left (b x : Usage) (o : Option Usage) :
    accumUsage (b.add x) o = b.add (accumUsage x o) := by
  cases o <;> simp [accumUsage, Usage.add, Usage.mk.injEq]
  omega

lemma sumUsages_append (l : List ProviderResponse) (r : ProviderResponse) :
    sumUsages (l ++ [r]) = accumUsage (sumUsages l) r.usage := by
  simp [sumUsages, List.foldl_append]

lemma sumTaskUsages_append (l : List TaskResult) (w : TaskResult) :
    sumTaskUsages (l ++ [w]) = accumUsage (sumTaskUsages l) w.usage := by
  simp [sumTaskUsages, List.foldl_append]

lemma executeTool_ok_of_isSome (env : WorkerEnv) (n : String) (a : Params)
    (h : (env.impls n).isSome) : ∃ s, executeTool env n a = .ok s := by
  rcases himpl : env.impls n with _ | impl
  · rw [himpl] at h; exact absurd h (by simp)
  · rcases hr : impl a with m | s
    · exact ⟨"Error executing tool \"" ++ n ++ "\": " ++ m, by simp [executeTool, himpl, hr]⟩
    · exact ⟨s, by simp [executeTool, himpl, hr]⟩

lemma workerProcessToolCalls_ok (env : WorkerEnv) :
    ∀ (tcs : List ToolCall) (msgs : List Msg),
      (∀ t ∈ tcs, workerDispatchOk env t) →
      ∃ tail, workerProcessToolCalls env tcs msgs = .ok (msgs ++ tail) := by
  intro tcs
  induction tcs with
  | nil => intro msgs _; exact ⟨[], by simp [workerProcessToolCalls]⟩
  | cons tc rest ih =>
    intro msgs h
    obtain ⟨⟨args, hargs⟩, himpl⟩ := h tc (List.mem_cons_self tc rest)
    obtain ⟨s, hs⟩ := executeTool_ok_of_isSome env tc.function.name args himpl
    obtain ⟨tail, htail⟩ :=
      ih (msgs ++ [toolMsg s tc.id]) (fun t ht => h t (List.mem_cons_of_mem _ ht))
    refine ⟨toolMsg s tc.id :: tail, ?_⟩
    simpa [workerProcessToolCalls, hargs, hs, List.append_assoc] using htail

lemma workerProcessToolCalls_extends (env : WorkerEnv) :
    ∀ (tcs : List ToolCall) (msgs : List Msg),
      (∃ tail, workerProcessToolCalls env tcs msgs = .ok (msgs ++ tail)) ∨
      (∃ e tail, workerProcessToolCalls env tcs msgs = .error (e, msgs ++ tail)) := by
  intro tcs
  induction tcs with
  | nil => intro msgs; exact .inl ⟨[], by simp [workerProcessToolCalls]⟩
  | cons tc rest ih =>
    intro msgs
    rcases hp : env.jsonParse tc.function.arguments with e | args
    · exact .inr ⟨e, [], by simp [workerProcessToolCalls, hp]⟩
    · rcases he : executeTool env tc.function.name args with e | s
      · exact .inr ⟨e, [], by simp [workerProcessToolCalls, hp, he]⟩
      · rcases ih (msgs ++ [toolMsg s tc.id]) with ⟨tail, hok⟩ | ⟨e, tail, herr⟩
        · refine .inl ⟨toolMsg s tc.id :: tail, ?_⟩
          simpa [workerProcessToolCalls, hp, he, List.append_assoc] using hok
        · refine .inr ⟨e, toolMsg s tc.id :: tail, ?_⟩
          simpa [workerProcessToolCalls, hp, he, List.append_assoc] using herr

lemma workerProcessToolCalls_missing (env : WorkerEnv) (tc : ToolCall) (args : Params)
    (hparse : env.jsonParse tc.function.arguments = .ok args)
    (hmiss : env.impls tc.function.name = none) :
    ∀ (pre rest : List ToolCall) (msgs : List Msg),
      (∀ t ∈ pre, workerDispatchOk env t) →
      ∃ msgsE,
        workerProcessToolCalls env (pre ++ tc :: rest) msgs =
          .error (missingImplMessage tc.function.name, msgsE) := by
  intro pre
  induction pre with
  | nil =>
    intro rest msgs _
    exact ⟨msgs, by simp [workerProcessToolCalls, hparse, executeTool, hmiss]⟩
  | cons tc' pre' ih =>
    intro rest msgs h
    obtain ⟨⟨args', hargs'⟩, himpl'⟩ := h tc' (List.mem_cons_self tc' pre')
    obtain ⟨s, hs⟩ := executeTool_ok_of_isSome env tc'.function.name args' himpl'
    obtain ⟨msgsE, hE⟩ :=
      ih rest (msgs ++ [toolMsg s tc'.id]) (fun t ht => h t (List.mem_cons_of_mem _ ht))
    exact ⟨msgsE, by simpa [workerProcessToolCalls, hargs', hs] using hE⟩

lemma workerLoop_calls_le (env : WorkerEnv) :
    ∀ (fuel idx : Nat) (msgs : List Msg) (u : Usage) (c : Nat) (oks : List ProviderResponse),
      (workerLoop env fuel idx msgs u c oks).calls ≤ c + fuel := by
  intro fuel
  induction fuel with
  | zero => intro idx msgs u c oks; simp [workerLoop]
  | succ n ih =>
    intro idx msgs u c oks
    simp only [workerLoop]
    split
    · show c + 1 ≤ c + (n + 1); omega
    · split
      · show c + 1 ≤ c + (n + 1); omega
      · split
        · show c + 1 ≤ c + (n + 1); omega
        · exact le_trans (ih _ _ _ _ _) (by omega)

lemma workerLoop_extends (env : WorkerEnv) :
    ∀ (fuel idx : Nat) (msgs : List Msg) (u : Usage) (c : Nat) (oks : List ProviderResponse),
      ∃ tail, (workerLoop env fuel idx msgs u c oks).messages = msgs ++ tail := by
  intro fuel
  induction fuel with
  | zero => intro idx msgs u c oks; exact ⟨[], by simp [workerLoop]⟩
  | succ n ih =>
    intro idx msgs u c oks
    rcases hp : env.provider idx (applyContextWindow env.contextWindow msgs) with e | resp
    · exact ⟨[], by simp [workerLoop, hp]⟩
    · by_cases htc : resp.toolCalls.isEmpty
      · exact ⟨[assistantFinalMsg resp.content], by simp [workerLoop, hp, htc]⟩
      · rcases hw : workerProcessToolCalls env resp.toolCalls (msgs ++ [assistantToolMsg resp]) with
          ⟨e, msgsE⟩ | msgs'
        · rcases workerProcessToolCalls_extends env resp.toolCalls (msgs ++ [assistantToolMsg resp]) with
            ⟨t, h⟩ | ⟨e', t, h⟩
          · rw [hw] at h; exact absurd h (by simp)
          · rw [hw] at h
            have h2 : msgsE = (msgs ++ [assistantToolMsg resp]) ++ t :=
              congrArg Prod.snd (Except.error.inj h)
            refine ⟨assistantToolMsg resp :: t, ?_⟩
            simp [workerLoop, hp, htc, hw, h2]
        · obtain ⟨t2, ht2⟩ := ih (idx + 1) msgs' (accumUsage u resp.usage) (c + 1) (oks ++ [resp])
          rcases workerProcessToolCalls_extends env resp.toolCalls (msgs ++ [assistantToolMsg resp]) with
            ⟨t, h⟩ | ⟨e', t, h⟩
          · rw [hw] at h
            have h1 : msgs' = (msgs ++ [assistantToolMsg resp]) ++ t := Except.ok.inj h
            refine ⟨assistantToolMsg resp :: (t ++ t2), ?_⟩
            have hred : (workerLoop env (n + 1) idx msgs u c oks).messages =
                (workerLoop env n (idx + 1) msgs' (accumUsage u resp.usage) (c + 1)
                  (oks ++ [resp])).messages := by
              simp [workerLoop, hp, htc, hw]
            rw [hred, ht2, h1]
            simp
          · rw [hw] at h; exact absurd h (by simp)

lemma workerLoop_usage (env : WorkerEnv) :
    ∀ (fuel idx : Nat) (msgs : List Msg) (u : Usage) (c : Nat) (oks : List ProviderResponse),
      u = sumUsages oks →
      (workerLoop env fuel idx msgs u c oks).result.usage =
        some (sumUsages (workerLoop env fuel idx msgs u c oks).okResponses) := by
  intro fuel
  induction fuel with
  | zero => intro idx msgs u c oks hu; simp [workerLoop, hu]
  | succ n ih =>
    intro idx msgs u c oks hu
    rcases hp : env.provider idx (applyContextWindow env.contextWindow msgs) with e | resp
    · simp [workerLoop, hp, hu]
    · have hu' : accumUsage u resp.usage = sumUsages (oks ++ [resp]) := by
        rw [hu, sumUsages_append]
      by_cases htc : resp.toolCalls.isEmpty
      · simp [workerLoop, hp, htc, hu']
      · rcases hw : workerProcessToolCalls env resp.toolCalls (msgs ++ [assistantToolMsg resp]) with
          ⟨e, msgsE⟩ | msgs'
        · simp [workerLoop, hp, htc, hw, hu']
        · simpa [workerLoop, hp, htc, hw] using
            ih (idx + 1) msgs' (accumUsage u resp.usage) (c + 1) (oks ++ [resp]) hu'

lemma managerProcessToolCalls_extends (env : ManagerEnv) :
    ∀ (tcs : List ToolCall) (msgs : List Msg) (u : Usage) (ds : List TaskResult),
      (∃ tail u' ds', managerProcessToolCalls env tcs msgs u ds = .ok (msgs ++ tail, u', ds')) ∨
      (∃ e tail uE dsE,
        managerProcessToolCalls env tcs msgs u ds = .error (e, msgs ++ tail, uE, dsE)) := by
  intro tcs
  induction tcs with
  | nil => intro msgs u ds; exact .inl ⟨[], u, ds, by simp [managerProcessToolCalls]⟩
  | cons tc rest ih =>
    intro msgs u ds
    rcases hwk : env.workers tc.function.name with _ | wexec
    · rcases ih (msgs ++ [toolMsg (workerNotFoundMessage tc.function.name) tc.id]) u ds with
        ⟨tail, u', ds', hok⟩ | ⟨e, tail, uE, dsE, herr⟩
      · refine .inl ⟨toolMsg (workerNotFoundMessage tc.function.name) tc.id :: tail, u', ds', ?_⟩
        simpa [managerProcessToolCalls, hwk, List.append_assoc] using hok
      · refine .inr ⟨e, toolMsg (workerNotFoundMessage tc.function.name) tc.id :: tail, uE, dsE, ?_⟩
        simpa [managerProcessToolCalls, hwk, List.append_assoc] using herr
    · rcases hres : managerNotRestricted env tc.function.name with _ | _
      · rcases ih (msgs ++ [toolMsg (workerNotFoundMessage tc.function.name) tc.id]) u ds with
          ⟨tail, u', ds', hok⟩ | ⟨e, tail, uE, dsE, herr⟩
        · refine .inl ⟨toolMsg (workerNotFoundMessage tc.function.name) tc.id :: tail, u', ds', ?_⟩
          simpa [managerProcessToolCalls, hwk, hres, List.append_assoc] using hok
        · refine .inr ⟨e, toolMsg (workerNotFoundMessage tc.function.name) tc.id :: tail, uE, dsE, ?_⟩
          simpa [managerProcessToolCalls, hwk, hres, List.append_assoc] using herr
      · rcases hp : env.jsonParse tc.function.arguments with e | args
        · exact .inr ⟨e, [], u, ds, by simp [managerProcessToolCalls, hwk, hres, hp]⟩
        · rcases ih (msgs ++ [toolMsg (workerResultContent (wexec args)) tc.id])
              (accumUsage u (wexec args).usage) (ds ++ [wexec args]) with
            ⟨tail, u', ds', hok⟩ | ⟨e, tail, uE, dsE, herr⟩
          · refine .inl ⟨toolMsg (workerResultContent (wexec args)) tc.id :: tail, u', ds', ?_⟩
            simpa [managerProcessToolCalls, hwk, hres, hp, List.append_assoc] using hok
          · refine .inr ⟨e, toolMsg (workerResultContent (wexec args)) tc.id :: tail, uE, dsE, ?_⟩
            simpa [managerProcessToolCalls, hwk, hres, hp, List.append_assoc] using herr

lemma managerProcessToolCalls_ok (env : ManagerEnv) :
    ∀ (tcs : List ToolCall) (msgs : List Msg) (u : Usage) (ds : List TaskResult),
      (∀ t ∈ tcs, managerDispatchNoThrow env t) →
      ∃ tail u' ds', managerProcessToolCalls env tcs msgs u ds = .ok (msgs ++ tail, u', ds') := by
  intro tcs
  induction tcs with
  | nil => intro msgs u ds _; exact ⟨[], u, ds, by simp [managerProcessToolCalls]⟩
  | cons tc rest ih =>
    intro msgs u ds h
    have hrest : ∀ t ∈ rest, managerDispatchNoThrow env t :=
      fun t ht => h t (List.mem_cons_of_mem _ ht)
    rcases hwk : env.workers tc.function.name with _ | wexec
    · obtain ⟨tail, u', ds', hok⟩ :=
        ih (msgs ++ [toolMsg (workerNotFoundMessage tc.function.name) tc.id]) u ds hrest
      refine ⟨toolMsg (workerNotFoundMessage tc.function.name) tc.id :: tail, u', ds', ?_⟩
      simpa [managerProcessToolCalls, hwk, List.append_assoc] using hok
    · rcases hres : managerNotRestricted env tc.function.name with _ | _
      · obtain ⟨tail, u', ds', hok⟩ :=
          ih (msgs ++ [toolMsg (workerNotFoundMessage tc.function.name) tc.id]) u ds hrest
        refine ⟨toolMsg (workerNotFoundMessage tc.function.name) tc.id :: tail, u', ds', ?_⟩
        simpa [managerProcessToolCalls, hwk, hres, List.append_assoc] using hok
      · obtain ⟨args, hp⟩ := h tc (List.mem_cons_self tc rest) ⟨by simp [hwk], hres⟩
        obtain ⟨tail, u', ds', hok⟩ :=
          ih (msgs ++ [toolMsg (workerResultContent (wexec args)) tc.id])
            (accumUsage u (wexec args).usage) (ds ++ [wexec args]) hrest
        refine ⟨toolMsg (workerResultContent (wexec args)) tc.id :: tail, u', ds', ?_⟩
        simpa [managerProcessToolCalls, hwk, hres, hp, List.append_assoc] using hok

lemma managerProcessToolCalls_unresolved_mem (env : ManagerEnv) :
    ∀ (tcs : List ToolCall) (msgs : List Msg) (u : Usage) (ds : List TaskResult) (tc : ToolCall),
      tc ∈ tcs →
      (env.workers tc.function.name = none ∨ managerNotRestricted env tc.function.name = false) →
      (∀ t ∈ tcs, managerDispatchNoThrow env t) →
      ∃ tail u' ds',
        managerProcessToolCalls env tcs msgs u ds = .ok (msgs ++ tail, u', ds') ∧
        toolMsg (workerNotFoundMessage tc.function.name) tc.id ∈ msgs ++ tail := by
  intro tcs
  induction tcs with
  | nil => intro msgs u ds tc htc; exact absurd htc (by simp)
  | cons tc' rest ih =>
    intro msgs u ds tc htc hunres h
    have hrest : ∀ t ∈ rest, managerDispatchNoThrow env t :=
      fun t ht => h t (List.mem_cons_of_mem _ ht)
    rcases List.mem_cons.1 htc with heq | hmem
    · subst heq
      have hstep : managerProcessToolCalls env (tc :: rest) msgs u ds =
          managerProcessToolCalls env rest
            (msgs ++ [toolMsg (workerNotFoundMessage tc.function.name) tc.id]) u ds := by
        rcases hunres with hwk | hres
        · simp [managerProcessToolCalls, hwk]
        · rcases hwk : env.workers tc.function.name with _ | wexec
          · simp [managerProcessToolCalls, hwk]
          · simp [managerProcessToolCalls, hwk, hres]
      obtain ⟨tail, u', ds', hok⟩ :=
        managerProcessToolCalls_ok env rest
          (msgs ++ [toolMsg (workerNotFoundMessage tc.function.name) tc.id]) u ds hrest
      refine ⟨toolMsg (workerNotFoundMessage tc.function.name) tc.id :: tail, u', ds', ?_, ?_⟩
      · rw [hstep]; simpa [List.append_assoc] using hok
      · simp
    · rcases hwk : env.workers tc'.function.name with _ | wexec
      · obtain ⟨tail, u', ds', hok, hmem'⟩ :=
          ih (msgs ++ [toolMsg (workerNotFoundMessage tc'.function.name) tc'.id]) u ds tc
            hmem hunres hrest
        refine ⟨toolMsg (workerNotFoundMessage tc'.function.name) tc'.id :: tail, u', ds', ?_, ?_⟩
        · simpa [managerProcessToolCalls, hwk, List.append_assoc] using hok
        · simpa [List.append_assoc] using hmem'
      · rcases hres : managerNotRestricted env tc'.function.name with _ | _
        · obtain ⟨tail, u', ds', hok, hmem'⟩ :=
            ih (msgs ++ [toolMsg (workerNotFoundMessage tc'.function.name) tc'.id]) u ds tc
              hmem hunres hrest
          refine ⟨toolMsg (workerNotFoundMessage tc'.function.name) tc'.id :: tail, u', ds', ?_, ?_⟩
          · simpa [managerProcessToolCalls, hwk, hres, List.append_assoc] using hok
          · simpa [List.append_assoc] using hmem'
        · obtain ⟨args, hp⟩ := h tc' (List.mem_cons_self tc' rest) ⟨by simp [hwk], hres⟩
          obtain ⟨tail, u', ds', hok, hmem'⟩ :=
            ih (msgs ++ [toolMsg (workerResultContent (wexec args)) tc'.id])
              (accumUsage u (wexec args).usage) (ds ++ [wexec args]) tc hmem hunres hrest
          refine ⟨toolMsg (workerResultContent (wexec args)) tc'.id :: tail, u', ds', ?_, ?_⟩
          · simpa [managerProcessToolCalls, hwk, hres, hp, List.append_assoc] using hok
          · simpa [List.append_assoc] using hmem'

lemma managerProcessToolCalls_usage (env : ManagerEnv) :
    ∀ (tcs : List ToolCall) (msgs : List Msg) (u : Usage) (ds : List TaskResult) (b : Usage),
      u = b.add (sumTaskUsages ds) →
      (∀ msgs2 u2 ds2, managerProcessToolCalls env tcs msgs u ds = .ok (msgs2, u2, ds2) →
        u2 = b.add (sumTaskUsages ds2)) ∧
      (∀ e msgs2 u2 ds2, managerProcessToolCalls env tcs msgs u ds = .error (e, msgs2, u2, ds2) →
        u2 = b.add (sumTaskUsages ds2)) := by
  intro tcs
  induction tcs with
  | nil =>
    intro msgs u ds b hu
    constructor
    · intro msgs2 u2 ds2 hok
      simp only [managerProcessToolCalls, Except.ok.injEq, Prod.mk.injEq] at hok
      obtain ⟨h1, h2, h3⟩ := hok
      subst h2; subst h3; exact hu
    · intro e msgs2 u2 ds2 herr
      simp [managerProcessToolCalls] at herr
  | cons tc rest ih =>
    intro msgs u ds b hu
    rcases hwk : env.workers tc.function.name with _ | wexec
    · have hstep : managerProcessToolCalls env (tc :: rest) msgs u ds =
          managerProcessToolCalls env rest
            (msgs ++ [toolMsg (workerNotFoundMessage tc.function.name) tc.id]) u ds := by
        simp [managerProcessToolCalls, hwk]
      rw [hstep]
      exact ih _ u ds b hu
    · rcases hres : managerNotRestricted env tc.function.name with _ | _
      · have hstep : managerProcessToolCalls env (tc :: rest) msgs u ds =
            managerProcessToolCalls env rest
              (msgs ++ [toolMsg (workerNotFoundMessage tc.function.name) tc.id]) u ds := by
          simp [managerProcessToolCalls, hwk, hres]
        rw [hstep]
        exact ih _ u ds b hu
      · rcases hp : env.jsonParse tc.function.arguments with e | args
        · have hstep : managerProcessToolCalls env (tc :: rest) msgs u ds =
              .error (e, msgs, u, ds) := by
            simp [managerProcessToolCalls, hwk, hres, hp]
          rw [hstep]
          constructor
          · intro msgs2 u2 ds2 hok; cases hok
          · intro e' msgs2 u2 ds2 herr
            simp only [Except.error.injEq, Prod.mk.injEq] at herr
            obtain ⟨h0, h1, h2, h3⟩ := herr
            subst h2; subst h3; exact hu
        · have hstep : managerProcessToolCalls env (tc :: rest) msgs u ds =
              managerProcessToolCalls env rest
                (msgs ++ [toolMsg (workerResultContent (wexec args)) tc.id])
                (accumUsage u (wexec args).usage) (ds ++ [wexec args]) := by
            simp [managerProcessToolCalls, hwk, hres, hp]
          have hu' : accumUsage u (wexec args).usage =
              b.add (sumTaskUsages (ds ++ [wexec args])) := by
            rw [hu, accumUsage_add_left, sumTaskUsages_append]
          rw [hstep]
          exact ih _ _ _ b hu'

lemma managerLoop_calls_le (env : ManagerEnv) :
    ∀ (fuel idx : Nat) (msgs : List Msg) (u : Usage) (c : Nat)
      (oks : List ProviderResponse) (ds : List TaskResult),
      (managerLoop env fuel idx msgs u c oks ds).calls ≤ c + fuel := by
  intro fuel
  induction fuel with
  | zero => intro idx msgs u c oks ds; simp [managerLoop]
  | succ n ih =>
    intro idx msgs u c oks ds
    simp only [managerLoop]
    split
    · show c + 1 ≤ c + (n + 1); omega
    · split
      · show c + 1 ≤ c + (n + 1); omega
      · split
        · show c + 1 ≤ c + (n + 1); omega
        · exact le_trans (ih _ _ _ _ _ _) (by omega)

lemma managerLoop_extends (env : ManagerEnv) :
    ∀ (fuel idx : Nat) (msgs : List Msg) (u : Usage) (c : Nat)
      (oks : List ProviderResponse) (ds : List TaskResult),
      ∃ tail, (managerLoop env fuel idx msgs u c oks ds).messages = msgs ++ tail := by
  intro fuel
  induction fuel with
  | zero => intro idx msgs u c oks ds; exact ⟨[], by simp [managerLoop]⟩
  | succ n ih =>
    intro idx msgs u c oks ds
    rcases hp : env.provider idx (applyContextWindow env.contextWindow msgs) with e | resp
    · exact ⟨[], by simp [managerLoop, hp]⟩
    · by_cases htc : resp.toolCalls.isEmpty
      · exact ⟨[], by simp [managerLoop, hp, htc]⟩
      · rcases hw : managerProcessToolCalls env resp.toolCalls (msgs ++ [assistantToolMsg resp])
            (accumUsage u resp.usage) ds with ⟨e, msgsE, uE, dsE⟩ | ⟨msgs', u'', ds'⟩
        · rcases managerProcessToolCalls_extends env resp.toolCalls (msgs ++ [assistantToolMsg resp])
              (accumUsage u resp.usage) ds with ⟨t, u2, ds2, h⟩ | ⟨e', t, uE2, dsE2, h⟩
          · rw [hw] at h; exact absurd h (by simp)
          · rw [hw] at h
            have h2 : msgsE = (msgs ++ [assistantToolMsg resp]) ++ t := by
              have := Except.error.inj h
              simp only [Prod.mk.injEq] at this
              exact this.2.1
            refine ⟨assistantToolMsg resp :: t, ?_⟩
            simp [managerLoop, hp, htc, hw, h2]
        · obtain ⟨t2, ht2⟩ := ih (idx + 1) msgs' u'' (c + 1) (oks ++ [resp]) ds'
          rcases managerProcessToolCalls_extends env resp.toolCalls (msgs ++ [assistantToolMsg resp])
              (accumUsage u resp.usage) ds with ⟨t, u2, ds2, h⟩ | ⟨e', t, uE2, dsE2, h⟩
          · rw [hw] at h
            have h1 : msgs' = (msgs ++ [assistantToolMsg resp]) ++ t := by
              have := Except.ok.inj h
              simp only [Prod.mk.injEq] at this
              exact this.1
            refine ⟨assistantToolMsg resp :: (t ++ t2), ?_⟩
            have hred : (managerLoop env (n + 1) idx msgs u c oks ds).messages =
                (managerLoop env n (idx + 1) msgs' u'' (c + 1) (oks ++ [resp]) ds').messages := by
              simp [managerLoop, hp, htc, hw]
            rw [hred, ht2, h1]
            simp
          · rw [hw] at h; exact absurd h (by simp)

lemma managerLoop_usage (env : ManagerEnv) :
    ∀ (fuel idx : Nat) (msgs : List Msg) (u : Usage) (c : Nat)
      (oks : List ProviderResponse) (ds : List TaskResult),
      u = (sumUsages oks).add (sumTaskUsages ds) →
      (managerLoop env fuel idx msgs u c oks ds).result.usage =
        some ((sumUsages (managerLoop env fuel idx msgs u c oks ds).okResponses).add
          (sumTaskUsages (managerLoop env fuel idx msgs u c oks ds).delegations)) := by
  intro fuel
  induction fuel with
  | zero => intro idx msgs u c oks ds hu; simp [managerLoop, hu]
  | succ n ih =>
    intro idx msgs u c oks ds hu
    rcases hp : env.provider idx (applyContextWindow env.contextWindow msgs) with e | resp
    · simp [managerLoop, hp, hu]
    · have hu' : accumUsage u resp.usage =
          (sumUsages (oks ++ [resp])).add (sumTaskUsages ds) := by
        rw [hu, accumUsage_add_swap, sumUsages_append]
      by_cases htc : resp.toolCalls.isEmpty
      · simp [managerLoop, hp, htc, hu']
      · rcases hw : managerProcessToolCalls env resp.toolCalls (msgs ++ [assistantToolMsg resp])
            (accumUsage u resp.usage) ds with ⟨e, msgsE, uE, dsE⟩ | ⟨msgs', u'', ds'⟩
        · have hE := (managerProcessToolCalls_usage env resp.toolCalls
            (msgs ++ [assistantToolMsg resp]) (accumUsage u resp.usage) ds
            (sumUsages (oks ++ [resp])) hu').2 e msgsE uE dsE hw
          simp [managerLoop, hp, htc, hw, hE]
        · have hOk := (managerProcessToolCalls_usage env resp.toolCalls
            (msgs ++ [assistantToolMsg resp]) (accumUsage u resp.usage) ds
            (sumUsages (oks ++ [resp])) hu').1 msgs' u'' ds' hw
          simpa [managerLoop, hp, htc, hw] using
            ih (idx + 1) msgs' u'' (c + 1) (oks ++ [resp]) ds' hOk

/-! ## Claim theorems -/

/-- C1: in any worker-loop round, if the provider's response requests a tool
name with no registered implementation (its arguments parse, and every
earlier request of that response dispatches normally, so the dispatch
reaches it), the execution aborts immediately: success is false, the error
is the missing-implementation message, that message contains the missing
tool's name, and no further provider call is made. -/
theorem claim_C1_worker_missing_tool_fatal
    (env : WorkerEnv) (fuel callIdx : Nat) (msgs : List Msg) (u : Usage) (c : Nat)
    (oks : List ProviderResponse) (resp : ProviderResponse)
    (pre rest : List ToolCall) (tc : ToolCall) (args : Params)
    (hresp : env.provider callIdx (applyContextWindow env.contextWindow msgs) = .ok resp)
    (htc : resp.toolCalls = pre ++ tc :: rest)
    (hpre : ∀ t ∈ pre, workerDispatchOk env t)
    (hparse : env.jsonParse tc.function.arguments = .ok args)
    (hmiss : env.impls tc.function.name = none) :
    (workerLoop env (fuel + 1) callIdx msgs u c oks).result.success = false ∧
    (workerLoop env (fuel + 1) callIdx msgs u c oks).result.error =
      some (missingImplMessage tc.function.name) ∧
    (∃ s1 s2, missingImplMessage tc.function.name = s1 ++ tc.function.name ++ s2) ∧
    (workerLoop env (fuel + 1) callIdx msgs u c oks).calls = c + 1 := by
  have hne : ¬ resp.toolCalls.isEmpty := by
    rw [htc]; cases pre <;> simp
  obtain ⟨msgsE, hE⟩ := workerProcessToolCalls_missing env tc args hparse hmiss pre rest
    (msgs ++ [assistantToolMsg resp]) hpre
  rw [← htc] at hE
  refine ⟨?_, ?_,
    ⟨"Tool \"",
     "\" has no implementation provided. Please add the tool implementation to the worker configuration.",
     rfl⟩, ?_⟩ <;>
    simp [workerLoop, hresp, hne, hE]

/-- C1 witness: Scenario B evaluated — a worker with an empty dispatch table
whose provider requests `frob` fails after a single provider call with the
missing-implementation error naming `frob`. -/
theorem claim_C1_witness :
    (workerLoop wEnvMissing 3 0 (workerInitMessages "sys") Usage.zero 0 []).result.success = false ∧
    (workerLoop wEnvMissing 3 0 (workerInitMessages "sys") Usage.zero 0 []).result.error =
      some (missingImplMessage "frob") ∧
    (∃ s1 s2, missingImplMessage "frob" = s1 ++ "frob" ++ s2) ∧
    (workerLoop wEnvMissing 3 0 (workerInitMessages "sys") Usage.zero 0 []).calls = 0 + 1 :=
  claim_C1_worker_missing_tool_fatal wEnvMissing 2 0 (workerInitMessages "sys") Usage.zero 0 []
    respFrob [] [] tcFrob [] rfl rfl (by simp) rfl rfl

/-- C3: for every provider behaviour, the number of provider calls made by a
worker or manager execution is at most the configured ceiling, and the
ceilings default (via `||`) to 20 for the manager and 25 for a worker. -/
theorem claim_C3_iterations_bounded :
    (∀ (env : WorkerEnv) (maxIterations : Nat) (state : List Msg) (params : Params),
      (workerExecute env maxIterations state params).calls ≤ maxIterations) ∧
    (∀ (env : ManagerEnv) (systemPrompt : String) (maxIterations : Nat) (t : Task),
      (managerExecuteTask env systemPrompt maxIterations t).calls ≤ maxIterations) ∧
    jsOrDefault none 20 = 20 ∧ jsOrDefault none 25 = 25 := by
  refine ⟨?_, ?_, rfl, rfl⟩
  · intro env mi state params
    simpa [workerExecute] using
      workerLoop_calls_le env mi 0 (state ++ [workerParamsMsg params]) Usage.zero 0 []
  · intro env sp mi t
    simpa [managerExecuteTask] using
      managerLoop_calls_le env mi 0 (managerInitMessages sp t) Usage.zero 0 [] []

/-- C5 (amended): for every window size `w ≥ 2` the construction transmits a
sequence of length ≤ `w` unchanged and otherwise transmits exactly turn 0
followed by the most recent `w - 1` turns, so the view has exactly `w`
turns.  For `w = 1` the claim fails (see the counterexample): JavaScript
`slice(-0)` returns the whole array, so the view is turn 0 prepended to the
entire sequence. -/
theorem claim_C5_context_window_amended (w : Nat) (hw : 2 ≤ w) (m0 : Msg) (ms : List Msg) :
    ((m0 :: ms).length ≤ w → applyContextWindow w (m0 :: ms) = m0 :: ms) ∧
    (w < (m0 :: ms).length →
      applyContextWindow w (m0 :: ms) =
        m0 :: (m0 :: ms).drop ((m0 :: ms).length - (w - 1)) ∧
      ((m0 :: ms).drop ((m0 :: ms).length - (w - 1))).length = w - 1 ∧
      (applyContextWindow w (m0 :: ms)).length = w) := by
  constructor
  · intro hle
    simp only [applyContextWindow]
    rw [if_pos hle]
  · intro hgt
    have hne : ¬ (m0 :: ms).length ≤ w := by omega
    have hk : w - 1 ≠ 0 := by omega
    have heq : applyContextWindow w (m0 :: ms) =
        m0 :: (m0 :: ms).drop ((m0 :: ms).length - (w - 1)) := by
      simp only [applyContextWindow]
      rw [if_neg hne]
      simp only [jsSliceLast]
      rw [if_neg hk]
    have hlen : (m0 :: ms).length = ms.length + 1 := by simp
    have hdlen : ((m0 :: ms).drop ((m0 :: ms).length - (w - 1))).length = w - 1 := by
      rw [List.length_drop]
      omega
    refine ⟨heq, hdlen, ?_⟩
    rw [heq]
    rw [List.length_cons, hdlen]
    omega

/-- C5 witness: window size 2 on a 3-turn sequence transmits turn 0 plus the
single most recent turn. -/
theorem claim_C5_witness :
    applyContextWindow 2 [systemMsg "a", systemMsg "b", systemMsg "c"] =
      systemMsg "a" :: [systemMsg "a", systemMsg "b", systemMsg "c"].drop 2 ∧
    (applyContextWindow 2 [systemMsg "a", systemMsg "b", systemMsg "c"]).length = 2 := by
  have h := (claim_C5_context_window_amended 2 (by decide) (systemMsg "a")
    [systemMsg "b", systemMsg "c"]).2 (by decide)
  exact ⟨by simpa using h.1, h.2.2⟩

/-- C5 counterexample: with configured window size 1 and a retained sequence
of 2 turns, the construction transmits 3 turns (turn 0 prepended to the
whole sequence), so the transmitted view exceeds the window size. -/
theorem claim_C5_counterexample :
    applyContextWindow 1 [systemMsg "a", systemMsg "b"] =
      [systemMsg "a", systemMsg "a", systemMsg "b"] ∧
    ¬ (applyContextWindow 1 [systemMsg "a", systemMsg "b"]).length ≤ 1 := by
  constructor
  · rfl
  · decide

/-- C6 (amended): on a tool-less response the worker loop appends the final
assistant turn and terminates with success and the response text, the
persisted sequence ending in that assistant turn; the manager loop likewise
terminates with success and the response text but does not append the
assistant turn, so its persisted sequence is unchanged by the final
response. -/
theorem claim_C6_toolless_exit_amended :
    (∀ (env : WorkerEnv) (fuel idx : Nat) (msgs : List Msg) (u : Usage) (c : Nat)
      (oks : List ProviderResponse) (resp : ProviderResponse),
      env.provider idx (applyContextWindow env.contextWindow msgs) = .ok resp →
      resp.toolCalls = [] →
      (workerLoop env (fuel + 1) idx msgs u c oks).result.success = true ∧
      (workerLoop env (fuel + 1) idx msgs u c oks).result.content = resp.content ∧
      (workerLoop env (fuel + 1) idx msgs u c oks).messages =
        msgs ++ [assistantFinalMsg resp.content] ∧
      (workerLoop env (fuel + 1) idx msgs u c oks).messages.getLast? =
        some (assistantFinalMsg resp.content)) ∧
    (∀ (env : ManagerEnv) (fuel idx : Nat) (msgs : List Msg) (u : Usage) (c : Nat)
      (oks : List ProviderResponse) (ds : List TaskResult) (resp : ProviderResponse),
      env.provider idx (applyContextWindow env.contextWindow msgs) = .ok resp →
      resp.toolCalls = [] →
      (managerLoop env (fuel + 1) idx msgs u c oks ds).result.success = true ∧
      (managerLoop env (fuel + 1) idx msgs u c oks ds).result.content = resp.content ∧
      (managerLoop env (fuel + 1) idx msgs u c oks ds).messages = msgs) := by
  constructor
  · intro env fuel idx msgs u c oks resp hp htc
    have hemp : resp.toolCalls.isEmpty := by simp [htc]
    refine ⟨?_, ?_, ?_, ?_⟩ <;> simp [workerLoop, hp, hemp, List.getLast?_concat]
  · intro env fuel idx msgs u c oks ds resp hp htc
    have hemp : resp.toolCalls.isEmpty := by simp [htc]
    refine ⟨?_, ?_, ?_⟩ <;> simp [managerLoop, hp, hemp]

/-- C6 witness: the worker side evaluated — the persisted sequence ends with
the final assistant turn; the manager side evaluated — the persisted
sequence is exactly the initial two turns. -/
theorem claim_C6_witness :
    (workerLoop wEnvDone 1 0 [systemMsg "s"] Usage.zero 0 []).messages.getLast? =
      some (assistantFinalMsg "done") ∧
    (managerLoop mEnvDone 1 0 (managerInitMessages "s" exTask) Usage.zero 0 [] []).messages =
      managerInitMessages "s" exTask := by
  have hW := claim_C6_toolless_exit_amended.1 wEnvDone 0 0 [systemMsg "s"] Usage.zero 0 []
    respDone rfl rfl
  have hM := claim_C6_toolless_exit_amended.2 mEnvDone 0 0 (managerInitMessages "s" exTask)
    Usage.zero 0 [] [] respDone rfl rfl
  exact ⟨hW.2.2.2, hM.2.2⟩

/-- C6 counterexample: a manager execution whose first response is tool-less
terminates with success and content `"done"`, yet the persisted
conversation's last turn is the initial user turn — the final assistant turn
was never appended, contradicting the claim for the manager loop. -/
theorem claim_C6_counterexample :
    (managerExecuteTask mEnvDone "s" 1 exTask).result.content = "done" ∧
    (managerExecuteTask mEnvDone "s" 1 exTask).messages.getLast? = some (taskUserMsg exTask) ∧
    (taskUserMsg exTask).role ≠ Role.assistant := by
  refine ⟨rfl, by decide, by decide⟩

/-- C7: the usage on the returned result is the exact sum of the usage
reported by the execution's provider calls — for the manager, its own
provider calls plus the usage returned by every delegated worker execution
(whose own usage is in turn the sum over that worker's provider calls, by
the first conjunct). -/
theorem claim_C7_usage_sum :
    (∀ (env : WorkerEnv) (maxIterations : Nat) (state : List Msg) (params : Params),
      (workerExecute env maxIterations state params).result.usage =
        some (sumUsages (workerExecute env maxIterations state params).okResponses)) ∧
    (∀ (env : ManagerEnv) (systemPrompt : String) (maxIterations : Nat) (t : Task),
      (managerExecuteTask env systemPrompt maxIterations t).result.usage =
        some ((sumUsages (managerExecuteTask env systemPrompt maxIterations t).okResponses).add
          (sumTaskUsages (managerExecuteTask env systemPrompt maxIterations t).delegations))) := by
  constructor
  · intro env mi state params
    exact workerLoop_usage env mi 0 (state ++ [workerParamsMsg params]) Usage.zero 0 [] rfl
  · intro env sp mi t
    exact managerLoop_usage env mi 0 (managerInitMessages sp t) Usage.zero 0 [] [] rfl

lemma managerLoop_calls_ge (env : ManagerEnv) :
    ∀ (fuel idx : Nat) (msgs : List Msg) (u : Usage) (c : Nat)
      (oks : List ProviderResponse) (ds : List TaskResult),
      c ≤ (managerLoop env fuel idx msgs u c oks ds).calls := by
  intro fuel
  induction fuel with
  | zero => intro idx msgs u c oks ds; simp [managerLoop]
  | succ n ih =>
    intro idx msgs u c oks ds
    simp only [managerLoop]
    split
    · show c ≤ c + 1; omega
    · split
      · show c ≤ c + 1; omega
      · split
        · show c ≤ c + 1; omega
        · exact le_trans (by omega) (ih _ _ _ (c + 1) _ _)

lemma managerLoop_calls_succ_ge (env : ManagerEnv) :
    ∀ (fuel idx : Nat) (msgs : List Msg) (u : Usage) (c : Nat)
      (oks : List ProviderResponse) (ds : List TaskResult),
      c + 1 ≤ (managerLoop env (fuel + 1) idx msgs u c oks ds).calls := by
  intro fuel idx msgs u c oks ds
  simp only [managerLoop]
  split
  · show c + 1 ≤ c + 1; omega
  · split
    · show c + 1 ≤ c + 1; omega
    · split
      · show c + 1 ≤ c + 1; omega
      · exact managerLoop_calls_ge env _ _ _ _ (c + 1) _ _

/-- C2: if a tool-invocation request names an unregistered or restricted
worker (and no request of that response throws on argument parsing), the
manager appends a tool turn whose content is exactly
`Error: Worker '<name>' not found or restricted`, the round completes
normally and — with at least one round of fuel remaining — the loop makes a
further provider call rather than aborting; this event by itself never
produces a failed result. -/
theorem claim_C2_manager_unresolved_nonfatal
    (env : ManagerEnv) (fuel callIdx : Nat) (msgs : List Msg) (u : Usage) (c : Nat)
    (oks : List ProviderResponse) (ds : List TaskResult) (resp : ProviderResponse) (tc : ToolCall)
    (hresp : env.provider callIdx (applyContextWindow env.contextWindow msgs) = .ok resp)
    (htc : tc ∈ resp.toolCalls)
    (hunres : env.workers tc.function.name = none ∨
      managerNotRestricted env tc.function.name = false)
    (hsafe : ∀ t ∈ resp.toolCalls, managerDispatchNoThrow env t) :
    workerNotFoundMessage tc.function.name =
      "Error: Worker '" ++ tc.function.name ++ "' not found or restricted" ∧
    ∃ msgs' u' ds',
      managerProcessToolCalls env resp.toolCalls (msgs ++ [assistantToolMsg resp])
        (accumUsage u resp.usage) ds = .ok (msgs', u', ds') ∧
      toolMsg (workerNotFoundMessage tc.function.name) tc.id ∈ msgs' ∧
      managerLoop env (fuel + 1) callIdx msgs u c oks ds =
        managerLoop env fuel (callIdx + 1) msgs' u' (c + 1) (oks ++ [resp]) ds' ∧
      c + 2 ≤ (managerLoop env (fuel + 2) callIdx msgs u c oks ds).calls := by
  have hne : ¬ resp.toolCalls.isEmpty := by
    have h0 := List.ne_nil_of_mem htc
    simpa [List.isEmpty_iff] using h0
  obtain ⟨tail, u', ds', hok, hmem⟩ := managerProcessToolCalls_unresolved_mem env resp.toolCalls
    (msgs ++ [assistantToolMsg resp]) (accumUsage u resp.usage) ds tc htc hunres hsafe
  refine ⟨rfl, (msgs ++ [assistantToolMsg resp]) ++ tail, u', ds', hok, hmem, ?_, ?_⟩
  · simp [managerLoop, hresp, hne, hok]
  · have hstep : managerLoop env (fuel + 2) callIdx msgs u c oks ds =
        managerLoop env (fuel + 1) (callIdx + 1) ((msgs ++ [assistantToolMsg resp]) ++ tail)
          u' (c + 1) (oks ++ [resp]) ds' := by
      simp [managerLoop, hresp, hne, hok]
    rw [hstep]
    have := managerLoop_calls_succ_ge env fuel (callIdx + 1)
      ((msgs ++ [assistantToolMsg resp]) ++ tail) u' (c + 1) (oks ++ [resp]) ds'
    omega

/-- C2 witness: Scenario C evaluated — `restrictedWorkers = ["calc"]`, the
provider requests `calc`: the exact error turn is appended and a second
provider call happens. -/
theorem claim_C2_witness :
    workerNotFoundMessage "calc" = "Error: Worker 'calc' not found or restricted" ∧
    ∃ msgs' u' ds',
      managerProcessToolCalls mEnvRestricted respDelegate.toolCalls
        (managerInitMessages "sys" exTask ++ [assistantToolMsg respDelegate])
        (accumUsage Usage.zero respDelegate.usage) [] = .ok (msgs', u', ds') ∧
      toolMsg (workerNotFoundMessage "calc") tcCalc.id ∈ msgs' ∧
      managerLoop mEnvRestricted 2 0 (managerInitMessages "sys" exTask) Usage.zero 0 [] [] =
        managerLoop mEnvRestricted 1 1 msgs' u' 1 ([] ++ [respDelegate]) ds' ∧
      0 + 2 ≤ (managerLoop mEnvRestricted 3 0 (managerInitMessages "sys" exTask)
        Usage.zero 0 [] []).calls :=
  claim_C2_manager_unresolved_nonfatal mEnvRestricted 1 0 (managerInitMessages "sys" exTask)
    Usage.zero 0 [] [] respDelegate tcCalc rfl (by simp [respDelegate])
    (Or.inr (by decide)) (fun t _ _ => ⟨[], rfl⟩)

lemma workerLoop_busy (env : WorkerEnv) (N : Nat)
    (h : ∀ i ms, i < N → ∃ resp, env.provider i ms = .ok resp ∧ resp.toolCalls ≠ [] ∧
      ∀ t ∈ resp.toolCalls, workerDispatchOk env t) :
    ∀ (fuel idx : Nat), idx + fuel ≤ N → ∀ (msgs : List Msg) (u : Usage) (c : Nat)
      (oks : List ProviderResponse),
      (workerLoop env fuel idx msgs u c oks).calls = c + fuel ∧
      (workerLoop env fuel idx msgs u c oks).result.success = true ∧
      (workerLoop env fuel idx msgs u c oks).result.content = workerMaxIterMessage := by
  intro fuel
  induction fuel with
  | zero => intro idx _ msgs u c oks; simp [workerLoop]
  | succ n ih =>
    intro idx hle msgs u c oks
    obtain ⟨resp, hresp, hne, hdisp⟩ :=
      h idx (applyContextWindow env.contextWindow msgs) (by omega)
    have hemp : ¬ resp.toolCalls.isEmpty := by simpa [List.isEmpty_iff] using hne
    obtain ⟨tail, hok⟩ :=
      workerProcessToolCalls_ok env resp.toolCalls (msgs ++ [assistantToolMsg resp]) hdisp
    have hred : workerLoop env (n + 1) idx msgs u c oks =
        workerLoop env n (idx + 1) ((msgs ++ [assistantToolMsg resp]) ++ tail)
          (accumUsage u resp.usage) (c + 1) (oks ++ [resp]) := by
      simp [workerLoop, hresp, hemp, hok]
    rw [hred]
    have hrec := ih (idx + 1) (by omega) ((msgs ++ [assistantToolMsg resp]) ++ tail)
      (accumUsage u resp.usage) (c + 1) (oks ++ [resp])
    refine ⟨?_, hrec.2.1, hrec.2.2⟩
    rw [hrec.1]; omega

lemma managerLoop_busy (env : ManagerEnv) (N : Nat)
    (h : ∀ i ms, i < N → ∃ resp, env.provider i ms = .ok resp ∧ resp.toolCalls ≠ [] ∧
      ∀ t ∈ resp.toolCalls, managerDispatchNoThrow env t) :
    ∀ (fuel idx : Nat), idx + fuel ≤ N → ∀ (msgs : List Msg) (u : Usage) (c : Nat)
      (oks : List ProviderResponse) (ds : List TaskResult),
      (managerLoop env fuel idx msgs u c oks ds).calls = c + fuel ∧
      (managerLoop env fuel idx msgs u c oks ds).result.success = true ∧
      (managerLoop env fuel idx msgs u c oks ds).result.content = managerMaxIterMessage := by
  intro fuel
  induction fuel with
  | zero => intro idx _ msgs u c oks ds; simp [managerLoop]
  | succ n ih =>
    intro idx hle msgs u c oks ds
    obtain ⟨resp, hresp, hne, hdisp⟩ :=
      h idx (applyContextWindow env.contextWindow msgs) (by omega)
    have hemp : ¬ resp.toolCalls.isEmpty := by simpa [List.isEmpty_iff] using hne
    obtain ⟨tail, u', ds', hok⟩ := managerProcessToolCalls_ok env resp.toolCalls
      (msgs ++ [assistantToolMsg resp]) (accumUsage u resp.usage) ds hdisp
    have hred : managerLoop env (n + 1) idx msgs u c oks ds =
        managerLoop env n (idx + 1) ((msgs ++ [assistantToolMsg resp]) ++ tail)
          u' (c + 1) (oks ++ [resp]) ds' := by
      simp [managerLoop, hresp, hemp, hok]
    rw [hred]
    have hrec := ih (idx + 1) (by omega) ((msgs ++ [assistantToolMsg resp]) ++ tail)
      u' (c + 1) (oks ++ [resp]) ds'
    refine ⟨?_, hrec.2.1, hrec.2.2⟩
    rw [hrec.1]; omega

/-- C4: if every one of the first `ceiling` provider responses carries at
least one tool-invocation request and no dispatch step throws, the loop
performs exactly `ceiling` provider calls and returns success = true with
the fixed maximum-iterations message and the usage accumulated so far —
for the worker and the manager loop alike. -/
theorem claim_C4_ceiling_exhaustion :
    (∀ (env : WorkerEnv) (N : Nat) (state : List Msg) (params : Params),
      (∀ i ms, i < N → ∃ resp, env.provider i ms = .ok resp ∧ resp.toolCalls ≠ [] ∧
        ∀ t ∈ resp.toolCalls, workerDispatchOk env t) →
      (workerExecute env N state params).calls = N ∧
      (workerExecute env N state params).result.success = true ∧
      (workerExecute env N state params).result.content = workerMaxIterMessage ∧
      (workerExecute env N state params).result.usage =
        some (sumUsages (workerExecute env N state params).okResponses)) ∧
    (∀ (env : ManagerEnv) (systemPrompt : String) (N : Nat) (t : Task),
      (∀ i ms, i < N → ∃ resp, env.provider i ms = .ok resp ∧ resp.toolCalls ≠ [] ∧
        ∀ tc ∈ resp.toolCalls, managerDispatchNoThrow env tc) →
      (managerExecuteTask env systemPrompt N t).calls = N ∧
      (managerExecuteTask env systemPrompt N t).result.success = true ∧
      (managerExecuteTask env systemPrompt N t).result.content = managerMaxIterMessage ∧
      (managerExecuteTask env systemPrompt N t).result.usage =
        some ((sumUsages (managerExecuteTask env systemPrompt N t).okResponses).add
          (sumTaskUsages (managerExecuteTask env systemPrompt N t).delegations))) := by
  constructor
  · intro env N state params h
    have hb := workerLoop_busy env N h N 0 (by omega)
      (state ++ [workerParamsMsg params]) Usage.zero 0 []
    have hu := workerLoop_usage env N 0 (state ++ [workerParamsMsg params]) Usage.zero 0 [] rfl
    exact ⟨by simpa [workerExecute] using hb.1, hb.2.1, hb.2.2, hu⟩
  · intro env sp N t h
    have hb := managerLoop_busy env N h N 0 (by omega)
      (managerInitMessages sp t) Usage.zero 0 [] []
    have hu := managerLoop_usage env N 0 (managerInitMessages sp t) Usage.zero 0 [] [] rfl
    exact ⟨by simpa [managerExecuteTask] using hb.1, hb.2.1, hb.2.2, hu⟩

/-- C4 witness: Scenario A evaluated on both sides with ceiling 1 — exactly
one provider call, success, and the fixed ceiling-exhaustion message. -/
theorem claim_C4_witness :
    (workerExecute wEnvBusy 1 [systemMsg "s"] []).calls = 1 ∧
    (workerExecute wEnvBusy 1 [systemMsg "s"] []).result.success = true ∧
    (workerExecute wEnvBusy 1 [systemMsg "s"] []).result.content = workerMaxIterMessage ∧
    (managerExecuteTask mEnvBusy "s" 1 exTask).calls = 1 ∧
    (managerExecuteTask mEnvBusy "s" 1 exTask).result.success = true ∧
    (managerExecuteTask mEnvBusy "s" 1 exTask).result.content = managerMaxIterMessage := by
  have hW := claim_C4_ceiling_exhaustion.1 wEnvBusy 1 [systemMsg "s"] []
    (fun i ms _ => ⟨respBusyW, rfl, by simp [respBusyW], by
      intro tc htc
      have h1 : tc = tcT := by simpa [respBusyW] using htc
      subst h1
      exact ⟨⟨[], rfl⟩, by simp [wEnvBusy, tcT]⟩⟩)
  have hM := claim_C4_ceiling_exhaustion.2 mEnvBusy "s" 1 exTask
    (fun i ms _ => ⟨respBusyM, rfl, by simp [respBusyM], fun tc _ hres => ⟨[], rfl⟩⟩)
  exact ⟨hW.1, hW.2.1, hW.2.2.1, hM.1, hM.2.1, hM.2.2.1⟩

/-- C8: the persisted conversation's first turn is always the system
instruction: the manager loop exits with the system turn first; the worker
loop preserves the head of its retained sequence, which both the
constructor and `resetHistory` set to the system turn. -/
theorem claim_C8_system_turn_first :
    (∀ (env : ManagerEnv) (systemPrompt : String) (N : Nat) (t : Task),
      (managerExecuteTask env systemPrompt N t).messages.head? = some (systemMsg systemPrompt)) ∧
    (∀ (env : WorkerEnv) (N : Nat) (systemPrompt : String) (state : List Msg) (params : Params),
      state.head? = some (systemMsg systemPrompt) →
      (workerExecute env N state params).messages.head? = some (systemMsg systemPrompt)) ∧
    (∀ systemPrompt,
      (workerInitMessages systemPrompt).head? = some (systemMsg systemPrompt) ∧
      (workerResetHistory systemPrompt).head? = some (systemMsg systemPrompt)) := by
  refine ⟨?_, ?_, fun sp => ⟨rfl, rfl⟩⟩
  · intro env sp N t
    obtain ⟨tail, h⟩ :=
      managerLoop_extends env N 0 (managerInitMessages sp t) Usage.zero 0 [] []
    show (managerLoop env N 0 (managerInitMessages sp t) Usage.zero 0 [] []).messages.head? = _
    rw [h]
    simp [managerInitMessages]
  · intro env N sp state params hhead
    obtain ⟨tail, h⟩ :=
      workerLoop_extends env N 0 (state ++ [workerParamsMsg params]) Usage.zero 0 []
    show (workerLoop env N 0 (state ++ [workerParamsMsg params]) Usage.zero 0 []).messages.head? = _
    rw [h]
    rcases state with _ | ⟨m0, rest⟩
    · cases hhead
    · simp only [List.head?_cons, Option.some.injEq] at hhead
      simp [hhead]

/-- C8 witness: evaluated runs — the manager's and a worker's persisted
conversations both start with the system turn. -/
theorem claim_C8_witness :
    (managerExecuteTask mEnvDone "s" 1 exTask).messages.head? = some (systemMsg "s") ∧
    (workerExecute wEnvDone 1 (workerInitMessages "s") []).messages.head? =
      some (systemMsg "s") :=
  ⟨claim_C8_system_turn_first.1 mEnvDone "s" 1 exTask,
   claim_C8_system_turn_first.2.1 wEnvDone 1 "s" (workerInitMessages "s") [] rfl⟩

lemma find?_map_set (m : ConvMap) (k : String) (v : StoredConversation)
    (h : m.any (fun p => p.1 = k) = true) :
    mapGet (m.map (fun p => if p.1 = k then (k, v) else p)) k = some v := by
  induction m with
  | nil => simp at h
  | cons p rest ih =>
    by_cases hpk : p.1 = k
    · simp [mapGet, hpk]
    · have h' : rest.any (fun p => p.1 = k) = true := by
        simpa [List.any_cons, hpk] using h
      simpa [mapGet, hpk] using ih h'

lemma find?_append_of_none (m : ConvMap) (k : String)
    (h : m.any (fun p => p.1 = k) = false) (suffix : ConvMap) :
    mapGet (m ++ suffix) k = mapGet suffix k := by
  induction m with
  | nil => simp
  | cons p rest ih =>
    have hpk : ¬ p.1 = k := by
      intro hk
      simp [List.any_cons, hk] at h
    have h' : rest.any (fun p => p.1 = k) = false := by
      simpa [List.any_cons, hpk] using h
    simpa [mapGet, hpk] using ih h'

lemma find?_map_replace_ne (m : ConvMap) (k k' : String) (v : StoredConversation)
    (h : k' ≠ k) :
    mapGet (m.map (fun p => if p.1 = k then (k, v) else p)) k' = mapGet m k' := by
  induction m with
  | nil => rfl
  | cons p rest ih =>
    by_cases hpk : p.1 = k
    · have hk' : ¬ p.1 = k' := by rw [hpk]; exact fun he => h he.symm
      have hkk' : ¬ k = k' := fun he => h he.symm
      simpa [mapGet, hpk, hk', hkk'] using ih
    · have hif : (if p.1 = k then (k, v) else p) = p := if_neg hpk
      by_cases hp' : p.1 = k'
      · simp only [List.map_cons, hif]
        simp [mapGet, hp']
      · simp only [List.map_cons, hif]
        simpa [mapGet, hp'] using ih

lemma mapGet_append_single_ne (m : ConvMap) (k k' : String) (v : StoredConversation)
    (h : k' ≠ k) :
    mapGet (m ++ [(k, v)]) k' = mapGet m k' := by
  induction m with
  | nil => simp [mapGet, Ne.symm h]
  | cons p rest ih =>
    by_cases hp' : p.1 = k'
    · simp [mapGet, hp']
    · simpa [mapGet, hp'] using ih

lemma mapGet_mapSet_self (m : ConvMap) (k : String) (v : StoredConversation) :
    mapGet (mapSet m k v) k = some v := by
  by_cases hany : m.any (fun p => p.1 = k)
  · simpa [mapSet, hany] using find?_map_set m k v hany
  · have hf : m.any (fun p => p.1 = k) = false := by
      revert hany; cases m.any (fun p => p.1 = k) <;> simp
    have := find?_append_of_none m k hf [(k, v)]
    simpa [mapSet, hany, mapGet] using this

lemma mapGet_mapSet_ne (m : ConvMap) (k k' : String) (v : StoredConversation)
    (h : k' ≠ k) : mapGet (mapSet m k v) k' = mapGet m k' := by
  by_cases hany : m.any (fun p => p.1 = k)
  · simpa [mapSet, hany] using find?_map_replace_ne m k k' v h
  · simpa [mapSet, hany] using mapGet_append_single_ne m k k' v h

lemma mapSet_length_le (m : ConvMap) (k : String) (v : StoredConversation) :
    (mapSet m k v).length ≤ m.length + 1 := by
  by_cases hany : m.any (fun p => p.1 = k) <;> simp [mapSet, hany]

lemma mem_values_of_mapGet (m : ConvMap) (k : String) (v : StoredConversation)
    (h : mapGet m k = some v) : v ∈ m.map (fun p => p.2) := by
  unfold mapGet at h
  rcases hf : m.find? (fun p => p.1 = k) with _ | p
  · rw [hf] at h; cases h
  · rw [hf] at h
    have hp : p ∈ m := List.mem_of_find?_eq_some hf
    have hv : p.2 = v := by simpa using h
    exact hv ▸ List.mem_map_of_mem _ hp

lemma foldl_oldest_some (m : ConvMap) :
    ∀ (q0 : String × StoredConversation),
      ∃ q, m.foldl (fun acc p =>
          match acc with
          | none => some p
          | some q => if p.2.updatedAt < q.2.updatedAt then some p else some q) (some q0) =
          some q ∧
        (q = q0 ∨ q ∈ m) ∧ q.2.updatedAt ≤ q0.2.updatedAt ∧
        ∀ p ∈ m, q.2.updatedAt ≤ p.2.updatedAt := by
  induction m with
  | nil => intro q0; exact ⟨q0, rfl, Or.inl rfl, le_refl _, by simp⟩
  | cons p rest ih =>
    intro q0
    by_cases hlt : p.2.updatedAt < q0.2.updatedAt
    · obtain ⟨q, hq, hmem, hle, hall⟩ := ih p
      refine ⟨q, by simpa [hlt] using hq, ?_, by omega, ?_⟩
      · rcases hmem with h | h
        · exact Or.inr (h ▸ List.mem_cons_self p rest)
        · exact Or.inr (List.mem_cons_of_mem _ h)
      · intro x hx
        rcases List.mem_cons.1 hx with h | h
        · subst h; exact hle
        · exact hall x h
    · obtain ⟨q, hq, hmem, hle, hall⟩ := ih q0
      refine ⟨q, by simpa [hlt] using hq, ?_, hle, ?_⟩
      · rcases hmem with h | h
        · exact Or.inl h
        · exact Or.inr (List.mem_cons_of_mem _ h)
      · intro x hx
        rcases List.mem_cons.1 hx with h | h
        · subst h; omega
        · exact hall x h

lemma findOldest_spec (m : ConvMap) (hne : m ≠ []) :
    ∃ q, findOldestConversation m = some q.1 ∧ q ∈ m ∧
      ∀ p ∈ m, q.2.updatedAt ≤ p.2.updatedAt := by
  rcases m with _ | ⟨p, rest⟩
  · exact absurd rfl hne
  · obtain ⟨q, hq, hmem, hle, hall⟩ := foldl_oldest_some rest p
    refine ⟨q, ?_, ?_, ?_⟩
    · simp only [findOldestConversation, List.foldl_cons]
      rw [hq]
      rfl
    · rcases hmem with h | h
      · exact h ▸ List.mem_cons_self p rest
      · exact List.mem_cons_of_mem _ h
    · intro x hx
      rcases List.mem_cons.1 hx with h | h
      · subst h; exact hle
      · exact hall x h

lemma mapDelete_length_lt (m : ConvMap) (q : String × StoredConversation) (hq : q ∈ m) :
    (mapDelete m q.1).length < m.length := by
  unfold mapDelete
  refine List.length_filter_lt_length_iff_exists.2 ⟨q, hq, ?_⟩
  simp

lemma mem_queryConversationsAll (m : ConvMap) (v : StoredConversation)
    (h : v ∈ m.map (fun p => p.2)) : v ∈ queryConversationsAll m := by
  unfold queryConversationsAll
  exact (List.mergeSort_perm _ _).mem_iff.2 h

/-- C9 (amended): in the id-keyed store (`src/src/memory/InMemoryStorage.ts`),
two writes keyed by distinct conversation ids, with the store below its
bound before the second write, leave both conversations retrievable — by
`getConversation` and by the query operation.  In the instance-keyed variant
(`src/unnamed/part_003`) every write of one instance shares a single key, so
the second write overwrites the first (see the counterexample). -/
theorem claim_C9_store_independent_amended
    (s : InMemoryStorage) (a b : StoredConversation)
    (hid : b.id ≠ a.id)
    (hcap : (storeConversation a s).conversations.length <
      (storeConversation a s).maxConversations) :
    getConversation (storeConversation b (storeConversation a s)) a.id = some a ∧
    getConversation (storeConversation b (storeConversation a s)) b.id = some b ∧
    a ∈ queryConversationsAll (storeConversation b (storeConversation a s)).conversations ∧
    b ∈ queryConversationsAll (storeConversation b (storeConversation a s)).conversations := by
  have hev : evictIfFull (storeConversation a s) = storeConversation a s := by
    unfold evictIfFull
    rw [if_neg (by omega)]
  have hconv : (storeConversation b (storeConversation a s)).conversations =
      mapSet (storeConversation a s).conversations b.id b := by
    show (let s1 := evictIfFull (storeConversation a s)
      { s1 with conversations := mapSet s1.conversations b.id b }).conversations =
      mapSet (storeConversation a s).conversations b.id b
    rw [hev]
  have hga : getConversation (storeConversation a s) a.id = some a :=
    mapGet_mapSet_self _ a.id a
  have hga2 : getConversation (storeConversation b (storeConversation a s)) a.id = some a := by
    show mapGet (storeConversation b (storeConversation a s)).conversations a.id = some a
    rw [hconv, mapGet_mapSet_ne _ b.id a.id b (fun he => hid he.symm)]
    exact hga
  have hgb : getConversation (storeConversation b (storeConversation a s)) b.id = some b := by
    show mapGet (storeConversation b (storeConversation a s)).conversations b.id = some b
    rw [hconv]
    exact mapGet_mapSet_self _ b.id b
  exact ⟨hga2, hgb,
    mem_queryConversationsAll _ a (mem_values_of_mapGet _ a.id a hga2),
    mem_queryConversationsAll _ b (mem_values_of_mapGet _ b.id b hgb)⟩

/-- C9 witness: two concrete conversations with distinct ids stored into the
empty id-keyed store are both retrievable afterwards. -/
theorem claim_C9_witness :
    getConversation (storeConversation convB (storeConversation convA idStoreEmpty)) convA.id =
      some convA ∧
    getConversation (storeConversation convB (storeConversation convA idStoreEmpty)) convB.id =
      some convB ∧
    convA ∈ queryConversationsAll
      (storeConversation convB (storeConversation convA idStoreEmpty)).conversations ∧
    convB ∈ queryConversationsAll
      (storeConversation convB (storeConversation convA idStoreEmpty)).conversations :=
  claim_C9_store_independent_amended idStoreEmpty convA convB (by decide) (by decide)

/-- C9 counterexample: in the instance-keyed store of `src/unnamed/part_003`,
storing the worker's conversation and then the manager's conversation within
the same instance leaves a single stored conversation: the second write
overwrote the first, and the worker's conversation is no longer retrievable,
contradicting the claim's independence of writes. -/
theorem claim_C9_counterexample :
    (storeConversationInst convB (storeConversationInst convA instStoreEmpty)).conversations.length
      = 1 ∧
    getConversationInst (storeConversationInst convB (storeConversationInst convA instStoreEmpty))
      = some convB ∧
    ¬ ∃ p ∈ (storeConversationInst convB
        (storeConversationInst convA instStoreEmpty)).conversations, p.2 = convA := by
  refine ⟨by decide, by decide, by decide⟩

/-- C10: bounded storage — provided `maxConversations ≥ 1` and the store is
within its bound, it remains within the bound after `storeConversation`; the
bound is unchanged; and when the store is at (or beyond) the bound, the
write first evicts a conversation whose `updatedAt` is minimal. -/
theorem claim_C10_bounded_store (s : InMemoryStorage) (c : StoredConversation)
    (hmax : 1 ≤ s.maxConversations)
    (hinv : s.conversations.length ≤ s.maxConversations) :
    (storeConversation c s).conversations.length ≤ s.maxConversations ∧
    (storeConversation c s).maxConversations = s.maxConversations ∧
    (s.maxConversations ≤ s.conversations.length →
      ∃ q, q ∈ s.conversations ∧ findOldestConversation s.conversations = some q.1 ∧
        (∀ p ∈ s.conversations, q.2.updatedAt ≤ p.2.updatedAt) ∧
        storeConversation c s =
          { s with conversations := mapSet (mapDelete s.conversations q.1) c.id c }) := by
  by_cases hfull : s.maxConversations ≤ s.conversations.length
  · have hne : s.conversations ≠ [] := by
      intro h0
      rw [h0] at hfull
      simp at hfull
      omega
    obtain ⟨q, hq, hqmem, hqmin⟩ := findOldest_spec s.conversations hne
    have hev : evictIfFull s = { s with conversations := mapDelete s.conversations q.1 } := by
      unfold evictIfFull
      rw [if_pos hfull, hq]
    have hstore : storeConversation c s =
        { s with conversations := mapSet (mapDelete s.conversations q.1) c.id c } := by
      show (let s1 := evictIfFull s
        { s1 with conversations := mapSet s1.conversations c.id c }) = _
      rw [hev]
    refine ⟨?_, by rw [hstore], fun _ => ⟨q, hqmem, hq, hqmin, hstore⟩⟩
    rw [hstore]
    have hdel := mapDelete_length_lt s.conversations q hqmem
    have hset := mapSet_length_le (mapDelete s.conversations q.1) c.id c
    simp only []
    omega
  · have hev : evictIfFull s = s := by
      unfold evictIfFull
      rw [if_neg hfull]
    have hstore : storeConversation c s =
        { s with conversations := mapSet s.conversations c.id c } := by
      show (let s1 := evictIfFull s
        { s1 with conversations := mapSet s1.conversations c.id c }) = _
      rw [hev]
    refine ⟨?_, by rw [hstore], fun h => absurd h hfull⟩
    rw [hstore]
    have hset := mapSet_length_le s.conversations c.id c
    simp only []
    omega

/-- C10 witness: a store at its bound `maxConversations = 1` accepts a new
conversation, stays at one stored conversation, and evicts the resident
(oldest) one first. -/
theorem claim_C10_witness :
    (storeConversation convA idStoreFull).conversations.length ≤
      idStoreFull.maxConversations ∧
    (storeConversation convA idStoreFull).maxConversations = idStoreFull.maxConversations ∧
    (idStoreFull.maxConversations ≤ idStoreFull.conversations.length →
      ∃ q, q ∈ idStoreFull.conversations ∧
        findOldestConversation idStoreFull.conversations = some q.1 ∧
        (∀ p ∈ idStoreFull.conversations, q.2.updatedAt ≤ p.2.updatedAt) ∧
        storeConversation convA idStoreFull =
          { idStoreFull with
            conversations := mapSet (mapDelete idStoreFull.conversations q.1) convA.id convA }) :=
  claim_C10_bounded_store idStoreFull convA (by decide) (by decide)

end OfficeLLM
